import Mathlib

/-!
Shallow embedding of the resume-ranking backend (analyzer.py, app.py,
resume_extractor.py) and proofs of the frozen claims about it.

Modelling conventions:
* Python strings are Lean `String` (lists of characters); the ASCII fragment of
  the Python text functions (`str.lower`, `\s`, `str.isdigit`, `str.strip`) is
  modelled, which covers every character the claims exercise.
* Python floats are modelled as exact rationals `ℚ`; `round(x, 2)` is modelled
  as round-half-to-even on rationals (`pyRound`), the rounding mode of Python.
* The external libraries (scikit-learn TF-IDF + cosine, the spaCy pipeline) are
  oracles collected in `NlpEnv`; a `none` result models an exception raised by
  the library call, which the source catches.  Everything the repository itself
  computes is modelled concretely.
* `pandas.DataFrame.sort_values(by, ascending=False)` on a single column is
  modelled as a deterministic descending sort (`List.insertionSort`).  The
  source uses the pandas default `kind='quicksort'` (numpy introsort), whose
  order among exactly tied keys is unspecified and in fact not stable beyond
  numpy's small-sort cutoff of about 16 elements, so the model fixes a tie
  order the program does not guarantee.  Every property proved over this model
  (C1, C3, C4, C9) is invariant under the tie order — it holds for any
  descending sort — while the tie-order property itself (C2) is settled as a
  code bug against the spec, with the failing input evaluated in
  `c2_seventeen_way_tie`.
-/

/-! ### preprocess_text — analyzer.py lines 17-24 -/

/-- The characters matched by the regex class `\s` (ASCII fragment). -/
def isSpaceChar (c : Char) : Bool :=
  c = ' ' || c = '\t' || c = '\n' || c = '\r' || c = '\x0b' || c = '\x0c'

/-- The character class `[a-zA-Z0-9\s+#]` kept by the first `re.sub` in
`preprocess_text`. -/
def keepChar (c : Char) : Bool :=
  c.isAlpha || c.isDigit || isSpaceChar c || c = '+' || c = '#'

/-- `re.sub(r'[^a-zA-Z0-9\s+#]', ' ', text)`: every character outside the class
is replaced by a single space. -/
def sub1 (cs : List Char) : List Char :=
  cs.map (fun c => if keepChar c then c else ' ')

/-- `re.sub(r'\s+', ' ', text)`: every maximal run of whitespace characters is
replaced by one space.  The flag records whether the previous character was
whitespace (i.e. whether we are inside a run that already emitted its space). -/
def collapseAux : Bool → List Char → List Char
  | _, [] => []
  | prev, c :: cs =>
    if isSpaceChar c then
      if prev then collapseAux true cs else ' ' :: collapseAux true cs
    else c :: collapseAux false cs

/-- `str.strip()`: drop whitespace from both ends. -/
def stripList (cs : List Char) : List Char :=
  ((cs.dropWhile isSpaceChar).reverse.dropWhile isSpaceChar).reverse

/-- analyzer.py `preprocess_text`: lower-case, keep `[a-zA-Z0-9\s+#]`, collapse
whitespace runs, strip.  `if not text: return ""` is the empty-string test. -/
def preprocess_text (text : String) : String :=
  if text = "" then ""
  else String.mk (stripList (collapseAux false (sub1 (text.toList.map Char.toLower))))

/-- Python `str.strip()` as used on the job-description form field (app.py). -/
def pyStrip (s : String) : String :=
  String.mk (stripList s.toList)

/-- Python `str.isdigit()` (ASCII fragment): non-empty and all digits. -/
def pyIsDigit (s : String) : Bool :=
  s ≠ "" && s.toList.all Char.isDigit

/-! ### Rounding — Python `round`, round-half-to-even on exact rationals -/

/-- Python `round(x)` on an exact rational: nearest integer, halves to even. -/
def pyRound (x : ℚ) : ℤ :=
  if Int.fract x < 1 / 2 then ⌊x⌋
  else if 1 / 2 < Int.fract x then ⌊x⌋ + 1
  else if ⌊x⌋ % 2 = 0 then ⌊x⌋ else ⌊x⌋ + 1

/-- Python `round(x, 2)`. -/
def round2 (x : ℚ) : ℚ :=
  (pyRound (x * 100) : ℚ) / 100

/-! ### The external-library oracle

`cosSim docs` models `cosine_similarity(tfidf.fit_transform(docs)[0:1], ...)`:
given the processed documents (job description first) it returns the list of
cosine similarities of the job description against each resume, or `none` if
the library raises (e.g. empty vocabulary).  `extract_keywords` models
analyzer.py lines 76-107, whose output is produced by the spaCy pipeline plus a
regex dictionary; `none` models an exception inside the library call. -/

structure NlpEnv where
  cosSim : List String → Option (List ℚ)
  extract_keywords : String → Option (Finset String)

/-! ### compute_similarity — analyzer.py lines 27-73 -/

/-- `documents = [jd_processed] + resume_processed` (lines 29-32). -/
def documents (jd_text : String) (resume_texts : List String) : List String :=
  preprocess_text jd_text :: resume_texts.map preprocess_text

/-- The keyword-score loop (lines 51-56): for each resume,
`len(jd_keywords & resume_keywords) / len(jd_keywords) if jd_keywords else 0`.
`none` propagates an exception from `extract_keywords`. -/
def keyword_scores (env : NlpEnv) (jd_keywords : Finset String) :
    List String → Option (List ℚ)
  | [] => some []
  | t :: ts =>
    match env.extract_keywords t, keyword_scores env jd_keywords ts with
    | some rk, some rest =>
      some ((if jd_keywords = ∅ then 0
             else ((jd_keywords ∩ rk).card : ℚ) / jd_keywords.card) :: rest)
    | _, _ => none

/-- The body of the `try` block (lines 45-62): cosine similarities, keyword
scores, and the weighted blend `0.7 * cos + 0.3 * kw`.  `none` models any
exception raised inside the block. -/
def try_scores (env : NlpEnv) (jd_text : String) (resume_texts docs : List String) :
    Option (List ℚ) :=
  match env.cosSim docs with
  | none => none
  | some cs =>
    match env.extract_keywords jd_text with
    | none => none
    | some jdkw =>
      match keyword_scores env jdkw resume_texts with
      | none => none
      | some kws => some ((cs.zip kws).map (fun p => 7 / 10 * p.1 + 3 / 10 * p.2))

/-- Lines 45-66: on an exception the `except` branch sets
`final_scores = [0.5] * len(resume_texts)`. -/
def final_scores (env : NlpEnv) (jd_text : String) (resume_texts docs : List String) :
    List ℚ :=
  (try_scores env jd_text resume_texts docs).getD
    (List.replicate resume_texts.length (1 / 2))

/-- The comparison used by the descending sort on the "Match %" column. -/
def rowLe (a b : String × ℚ) : Prop := b.2 ≤ a.2

instance : DecidableRel rowLe := fun a b => inferInstanceAs (Decidable (b.2 ≤ a.2))

instance : IsTotal (String × ℚ) rowLe := ⟨fun a b => le_total b.2 a.2⟩

instance : IsTrans (String × ℚ) rowLe := ⟨fun _ _ _ h1 h2 => le_trans h2 h1⟩

/-- `pd.DataFrame.sort_values(by="Match %", ascending=False)` on a single
column: a descending sort on the second component.  The tie order of this
model is a determinization — the default pandas `kind='quicksort'` leaves the
order of exactly tied rows unspecified (unstable beyond about 16 rows); see
the header note.  Only tie-order-invariant properties are proved over it. -/
def sort_values_desc (rows : List (String × ℚ)) : List (String × ℚ) :=
  List.insertionSort rowLe rows

/-- The data frame built on lines 68-71, in input order: each resume paired
with `round(score * 100, 2)`. -/
def ranked_rows (env : NlpEnv) (jd_text : String) (resume_texts filenames : List String) :
    List (String × ℚ) :=
  filenames.zip
    ((final_scores env jd_text resume_texts (documents jd_text resume_texts)).map
      (fun s => round2 (s * 100)))

/-- analyzer.py `compute_similarity` (lines 27-73), as the list of
(Resume, Match %) rows of the returned data frame. -/
def compute_similarity (env : NlpEnv) (jd_text : String)
    (resume_texts filenames : List String) : List (String × ℚ) :=
  if (documents jd_text resume_texts).all (· = "") then
    filenames.map (fun f => (f, (0 : ℚ)))
  else
    sort_values_desc (ranked_rows env jd_text resume_texts filenames)

/-! ### missing_keywords — analyzer.py lines 110-123 -/

/-- analyzer.py `missing_keywords`: set difference, filter
(`len(kw) > 2 and not kw.isdigit()`), stable sort by length descending
(`sorted(..., key=len, reverse=True)`), truncate to 15, return as a set.
Python iterates the intermediate set in an unspecified order before the
length sort; the model fixes the lexicographic order (`Finset.sort`) as that
iteration order.  `none` models an exception from `extract_keywords`. -/
def missing_keywords (env : NlpEnv) (jd_text resume_text : String) :
    Option (Finset String) :=
  match env.extract_keywords jd_text, env.extract_keywords resume_text with
  | some jk, some rk =>
    let missing := jk \ rk
    let filtered := missing.filter (fun kw => 2 < kw.length ∧ pyIsDigit kw = false)
    let sorted_missing :=
      List.insertionSort (fun a b : String => b.length ≤ a.length)
        (Finset.sort (· ≤ ·) filtered)
    some (sorted_missing.take 15).toFinset
  | _, _ => none

/-! ### get_skill_categories — analyzer.py lines 126-169 -/

/-- Regex word characters `\w` (ASCII fragment): `[a-zA-Z0-9_]`. -/
def isWordChar (c : Char) : Bool :=
  c.isAlphanum || c = '_'

/-- Word-ness of the character at a text position, with positions outside the
text counting as non-word. -/
def wbOpt : Option Char → Bool
  | none => false
  | some c => isWordChar c

/-- `re.search(r"\b" + re.escape(pat) + r"\b", text)`: some occurrence of the
literal `pat` whose ends both sit on a word boundary.  `\b` matches between two
positions exactly when one side is a word character and the other is not (the
ends of the text are non-word). -/
def wb_search (pat : String) (t : List Char) : Bool :=
  (List.range (t.length + 1)).any (fun i =>
    decide ((t.drop i).take pat.length = pat.toList)
    && (wbOpt (if i = 0 then none else t[i - 1]?) != wbOpt pat.toList.head?)
    && (wbOpt pat.toList.getLast? != wbOpt t[i + pat.length]?))

/-- Python `pat in text`: plain substring search (used for soft skills). -/
def substr_search (pat : String) (t : List Char) : Bool :=
  (List.range (t.length + 1)).any (fun i =>
    decide ((t.drop i).take pat.length = pat.toList))

/-- Python `str.capitalize()`: first character upper-cased, the rest lowered. -/
def pyCapitalize (s : String) : String :=
  match s.toList with
  | [] => ""
  | c :: cs => String.mk (Char.toUpper c :: cs.map Char.toLower)

/-- Python `str.upper()` (ASCII fragment). -/
def pyUpper (s : String) : String :=
  String.mk (s.toList.map Char.toUpper)

/-- Helper for `str.title()`: the flag says whether the next letter starts a
word (the previous character was not a letter). -/
def titleAux : Bool → List Char → List Char
  | _, [] => []
  | start, c :: cs =>
    if c.isAlpha then
      (if start then Char.toUpper c else Char.toLower c) :: titleAux false cs
    else c :: titleAux true cs

/-- Python `str.title()` (ASCII fragment). -/
def pyTitle (s : String) : String :=
  String.mk (titleAux true s.toList)

/-- The five fixed category lists of `get_skill_categories`. -/
def programming_languages_list : List String :=
  ["python", "java", "javascript", "c++", "c#", "ruby", "go", "rust",
   "php", "swift", "kotlin", "r", "matlab", "typescript"]

def frameworks_list : List String :=
  ["react", "angular", "vue", "django", "flask", "express", "spring", "laravel",
   "rails", ".net", "tensorflow", "pytorch", "keras"]

def databases_list : List String :=
  ["mysql", "postgresql", "mongodb", "redis", "oracle", "sql server",
   "dynamodb", "cassandra", "elasticsearch"]

def tools_list : List String :=
  ["docker", "kubernetes", "git", "jenkins", "aws", "azure", "gcp", "linux",
   "windows", "jira", "confluence"]

def soft_skills_list : List String :=
  ["leadership", "communication", "teamwork", "problem solving", "analytical",
   "creative", "management", "collaboration"]

/-- The dictionary returned by `get_skill_categories`, one field per key. -/
structure SkillCategories where
  programming_languages : List String
  frameworks : List String
  databases : List String
  tools : List String
  soft_skills : List String

/-- analyzer.py `get_skill_categories`: each category keeps its dictionary
order (the for-loops append in list order), so each list is a filter followed
by the per-category casing map. -/
def get_skill_categories (text : String) : SkillCategories :=
  let text_lower := text.toList.map Char.toLower
  { programming_languages :=
      (programming_languages_list.filter (fun l => wb_search l text_lower)).map
        pyCapitalize
    frameworks :=
      (frameworks_list.filter (fun fw => wb_search fw text_lower)).map pyCapitalize
    databases :=
      (databases_list.filter (fun db => wb_search db text_lower)).map
        (fun db => if db.length ≤ 5 then pyUpper db else pyCapitalize db)
    tools :=
      (tools_list.filter (fun tool => wb_search tool text_lower)).map
        (fun tool => if tool.length ≤ 3 then pyUpper tool else pyCapitalize tool)
    soft_skills :=
      (soft_skills_list.filter (fun sk => substr_search sk text_lower)).map pyTitle }

/-! ### The /analyze route — app.py lines 17-80

The pieces app.py delegates (werkzeug `secure_filename`, the temp-file dance
plus `extract_resume_text`, and the response assembly of lines 56-75 built from
the analyzer functions) are oracles in `AppEnv`.  An uploaded file is modelled
by its declared filename together with the text the extraction pipeline would
produce for it ("" models every extraction failure, exactly what
`extract_resume_text` returns on failure).  `process` models lines 56-75; an
`Except.error e` models an exception with message `str(e) = e` escaping to the
top-level handler. -/

structure UploadedFile where
  filename : String
  extracted : String

structure AppEnv (R : Type) where
  secure_filename : String → String
  process : String → List String → List String → Except String R

/-- A request to /analyze: the optional `job_description` form field
(`request.form.get` defaults to "") and the optional `resumes` file-list field
(`none` models `'resumes' not in request.files`). -/
structure AnalyzeRequest where
  job_description : Option String
  resumes : Option (List UploadedFile)

/-- The three outcomes of the route: 200 with a response, 400 with an error
message, 500 with an error message. -/
inductive Outcome (R : Type) where
  | success : R → Outcome R
  | clientError : String → Outcome R
  | serverError : String → Outcome R

def statusOf {R : Type} : Outcome R → Nat
  | .success _ => 200
  | .clientError _ => 400
  | .serverError _ => 500

/-- app.py `allowed_file`: the filename contains a dot and the lower-cased part
after the last dot (`rsplit('.', 1)[1].lower()`) is pdf or docx. -/
def allowed_file (filename : String) : Bool :=
  filename.toList.contains '.' &&
  (let ext :=
    String.mk ((filename.toList.reverse.takeWhile (fun c => c != '.')).reverse.map
      Char.toLower)
   ext = "pdf" || ext = "docx")

/-- The upload loop of app.py lines 40-51: keep the files passing
`allowed_file` whose extracted text is non-empty, collecting
(secure_filename, text) in input order. -/
def extracted_pairs {R : Type} (env : AppEnv R) (files : List UploadedFile) :
    List (String × String) :=
  files.filterMap (fun f =>
    if allowed_file f.filename && f.extracted != "" then
      some (env.secure_filename f.filename, f.extracted)
    else none)

/-- app.py `analyze` (lines 26-80): the guard cascade, the upload loop, the
delegated processing, and the top-level exception handler. -/
def analyze {R : Type} (env : AppEnv R) (req : AnalyzeRequest) : Outcome R :=
  if pyStrip (req.job_description.getD "") = "" then
    .clientError "Please provide a job description"
  else
    match req.resumes with
    | none => .clientError "No resumes uploaded"
    | some files =>
      match files with
      | [] => .clientError "No resumes selected"
      | f0 :: _ =>
        if f0.filename = "" then .clientError "No resumes selected"
        else if extracted_pairs env files = [] then
          .clientError "Could not extract text from any resume"
        else
          match env.process (pyStrip (req.job_description.getD ""))
              ((extracted_pairs env files).map Prod.snd)
              ((extracted_pairs env files).map Prod.fst) with
          | .ok r => .success r
          | .error e => .serverError e

/-- The 400 condition exactly as the claim states it (spec side, to be compared
with the modelled route): empty job description after trimming, missing
`resumes` field, no file selected, or no uploaded file yielding extractable
text. -/
def analyze_400_spec (req : AnalyzeRequest) : Prop :=
  pyStrip (req.job_description.getD "") = "" ∨
  req.resumes = none ∨
  (∃ files, req.resumes = some files ∧
    (files = [] ∨
     (∃ f0 rest, files = f0 :: rest ∧ f0.filename = "") ∨
     (∀ f ∈ files, allowed_file f.filename = false ∨ f.extracted = "")))

/-! ### Concrete oracle environments used by the witnesses -/

/-- An environment whose vectorizer succeeds with cosine similarity 1/2 for
every resume and whose keyword extractor always succeeds. -/
def envOk : NlpEnv where
  cosSim := fun docs => some (List.replicate (docs.length - 1) (1 / 2))
  extract_keywords := fun s =>
    some (if s = "jd python" then {"python", "aws"} else {"python"})

/-- An environment whose vectorizer raises (`fit_transform` fails). -/
def envFail : NlpEnv where
  cosSim := fun _ => none
  extract_keywords := fun _ => some ∅

/-- Auxiliary relation used to state that a character list has no two adjacent
whitespace characters (verification aid, not part of the source model). -/
def chR (a b : Char) : Prop :=
  ¬(isSpaceChar a = true ∧ isSpaceChar b = true)

/-! ## Helper lemmas -/

theorem toList_mk (l : List Char) : (String.mk l).toList = l := rfl

theorem mk_eq_empty_iff (l : List Char) : String.mk l = "" ↔ l = [] := by
  constructor
  · intro h
    exact congrArg String.data h
  · intro h
    subst h
    rfl

theorem keyword_scores_length (env : NlpEnv) (k : Finset String) :
    ∀ ts kws, keyword_scores env k ts = some kws → kws.length = ts.length := by
  intro ts
  induction ts with
  | nil =>
    intro kws h
    simp only [keyword_scores, Option.some.injEq] at h
    subst h
    rfl
  | cons t ts ih =>
    intro kws h
    simp only [keyword_scores] at h
    cases hek : env.extract_keywords t <;> rw [hek] at h
    · exact absurd h (by simp)
    case some rk =>
      cases hks : keyword_scores env k ts <;> rw [hks] at h
      · exact absurd h (by simp)
      case some rest =>
        simp only [Option.some.injEq] at h
        subst h
        simp [ih rest hks]

theorem keyword_scores_getD (env : NlpEnv) (k : Finset String) :
    ∀ ts kws i rki, keyword_scores env k ts = some kws → i < ts.length →
      env.extract_keywords (ts.getD i "") = some rki →
      kws.getD i 0 = (if k = ∅ then 0 else ((k ∩ rki).card : ℚ) / k.card) := by
  intro ts
  induction ts with
  | nil =>
    intro kws i rki _ hi
    exact absurd hi (by simp)
  | cons t ts ih =>
    intro kws i rki h hi hrk
    simp only [keyword_scores] at h
    cases hek : env.extract_keywords t <;> rw [hek] at h
    · exact absurd h (by simp)
    case some rk =>
      cases hks : keyword_scores env k ts <;> rw [hks] at h
      · exact absurd h (by simp)
      case some rest =>
        simp only [Option.some.injEq] at h
        subst h
        cases i with
        | zero =>
          rw [List.getD_cons_zero]
          rw [List.getD_cons_zero] at hrk
          rw [hek] at hrk
          simp only [Option.some.injEq] at hrk
          subst hrk
          rfl
        | succ n =>
          rw [List.getD_cons_succ]
          rw [List.getD_cons_succ] at hrk
          exact ih rest n rki hks (by simpa using hi) hrk

theorem final_scores_length (env : NlpEnv) (jd_text : String)
    (resume_texts docs : List String)
    (hcs : ∀ cs, env.cosSim docs = some cs → cs.length = resume_texts.length) :
    (final_scores env jd_text resume_texts docs).length = resume_texts.length := by
  unfold final_scores try_scores
  cases h1 : env.cosSim docs
  · simp
  case some cs =>
    cases h2 : env.extract_keywords jd_text
    · simp
    case some jdkw =>
      cases h3 : keyword_scores env jdkw resume_texts
      · simp [h3]
      case some kws =>
        have hk := keyword_scores_length env jdkw resume_texts kws h3
        have hc := hcs cs h1
        simp [h3, List.length_zip, hk, hc]

theorem zip_replicate_eq_map (c : ℚ) :
    ∀ l : List String, l.zip (List.replicate l.length c) = l.map (fun a => (a, c)) := by
  intro l
  induction l with
  | nil => rfl
  | cons a t ih => simp [List.replicate_succ, ih]

theorem zip_replicate_replicate (n : Nat) (a : String) (b : ℚ) :
    (List.replicate n a).zip (List.replicate n b) = List.replicate n (a, b) := by
  induction n with
  | zero => rfl
  | succ m ih => simp [List.replicate_succ, ih]

theorem pairwise_rowLe_replicate (n : Nat) (p : String × ℚ) :
    List.Pairwise rowLe (List.replicate n p) := by
  induction n with
  | zero => exact List.Pairwise.nil
  | succ m ih =>
    rw [List.replicate_succ]
    refine List.Pairwise.cons ?_ ih
    intro q hq
    rw [List.eq_of_mem_replicate hq]
    exact le_refl p.2

theorem pyRound_intCast (n : ℤ) : pyRound ((n : ℚ)) = n := by
  rw [pyRound, Int.fract_intCast, Int.floor_intCast]
  norm_num

theorem pairwise_rowLe_const (names : List String) (c : ℚ) :
    List.Pairwise rowLe (names.map (fun f => (f, c))) := by
  rw [List.pairwise_map]
  induction names with
  | nil => exact List.Pairwise.nil
  | cons a t ih => exact List.Pairwise.cons (fun b _ => le_refl c) ih

/-! ## Claims -/

/-- Claim C2 (code bug, failing-input evaluation): the claim asserts that
rows with exactly equal Match % keep their input order (a stable descending
sort), but the source sorts with `df.sort_values(by="Match %",
ascending=False)` and the pandas default `kind='quicksort'` (numpy introsort),
which pandas documents as not stable — only mergesort/stable are — and which
reorders equal-keyed rows once a partition exceeds the small-sort cutoff
(about 16 elements).  This theorem evaluates the code at the failing input:
seventeen resumes on the exception-fallback path, where every returned row
ties at Match % exactly 50, so the returned order is decided entirely by the
library sort's tie handling, which the code leaves unstable. -/
theorem c2_seventeen_way_tie :
    (compute_similarity envFail "job" (List.replicate 17 "x")
      (List.replicate 17 "r.pdf")).map Prod.snd = List.replicate 17 (50 : ℚ) ∧
    (compute_similarity envFail "job" (List.replicate 17 "x")
      (List.replicate 17 "r.pdf")).map Prod.fst = List.replicate 17 "r.pdf" := by
  have h : compute_similarity envFail "job" (List.replicate 17 "x")
      (List.replicate 17 "r.pdf") =
      (List.replicate 17 "r.pdf").map (fun f => (f, (50 : ℚ))) := by
    unfold compute_similarity sort_values_desc ranked_rows final_scores
    rw [if_neg (by decide)]
    rw [show try_scores envFail "job" (List.replicate 17 "x")
      (documents "job" (List.replicate 17 "x")) = none from rfl]
    simp only [Option.getD_none, List.map_replicate, List.length_replicate]
    have h50 : round2 (1 / 2 * 100) = 50 := by
      rw [round2]
      have h1 : ((1 : ℚ) / 2 * 100 * 100) = ((5000 : ℤ) : ℚ) := by norm_num
      rw [h1, pyRound_intCast]
      norm_num
    rw [h50, zip_replicate_replicate]
    exact List.Sorted.insertionSort_eq
      (pairwise_rowLe_replicate 17 ("r.pdf", 50))
  rw [h]
  constructor
  · rw [List.map_replicate, List.map_replicate]
  · rw [List.map_replicate, List.map_replicate]

/-- Claim C3: the sequence of Match % values in the returned ranking, read in
order, is non-increasing. -/
theorem c3_ranking_nonincreasing (env : NlpEnv) (jd_text : String)
    (resume_texts filenames : List String) :
    (compute_similarity env jd_text resume_texts filenames).Pairwise
      (fun a b => b.2 ≤ a.2) := by
  unfold compute_similarity sort_values_desc
  by_cases h : (documents jd_text resume_texts).all (fun d => d = "") = true
  · rw [if_pos h]
    exact pairwise_rowLe_const filenames 0
  · rw [if_neg h]
    exact List.sorted_insertionSort rowLe _

/-- Claim C6: if the job description and every resume normalize to the empty
string under preprocess_text, compute_similarity short-circuits and returns a
ranking assigning Match % exactly 0 to every resume. -/
theorem c6_all_empty_zero (env : NlpEnv) (jd_text : String)
    (resume_texts filenames : List String)
    (hjd : preprocess_text jd_text = "")
    (hres : ∀ t ∈ resume_texts, preprocess_text t = "") :
    compute_similarity env jd_text resume_texts filenames =
      filenames.map (fun f => (f, (0 : ℚ))) := by
  unfold compute_similarity
  rw [if_pos]
  rw [List.all_eq_true]
  intro d hd
  rw [documents] at hd
  rcases List.mem_cons.mp hd with h1 | h2
  · simp [h1, hjd]
  · obtain ⟨t, ht, rfl⟩ := List.mem_map.mp h2
    simp [hres t ht]

/-- Witness for C6 at a concrete input. -/
theorem c6_all_empty_zero_witness :
    preprocess_text "!?" = "" ∧ (∀ t ∈ ["@@"], preprocess_text t = "") ∧
    compute_similarity envOk "!?" ["@@"] ["r.pdf"] = [("r.pdf", (0 : ℚ))] :=
  ⟨by decide, by decide,
    c6_all_empty_zero envOk "!?" ["@@"] ["r.pdf"] (by decide) (by decide)⟩

/-- Claim C4: if the try-block of compute_similarity (vectorization plus
keyword scoring) raises, the exception does not propagate: every resume
receives Match % exactly 50 and a complete ranking is still returned. -/
theorem c4_exception_fallback (env : NlpEnv) (jd_text : String)
    (resume_texts filenames : List String)
    (hlen : resume_texts.length = filenames.length)
    (hne : (documents jd_text resume_texts).all (fun d => d = "") ≠ true)
    (hfail : try_scores env jd_text resume_texts (documents jd_text resume_texts)
      = none) :
    compute_similarity env jd_text resume_texts filenames =
      filenames.map (fun f => (f, (50 : ℚ))) := by
  unfold compute_similarity sort_values_desc ranked_rows final_scores
  rw [if_neg hne, hfail]
  simp only [Option.getD_none, List.map_replicate]
  have h50 : round2 (1 / 2 * 100) = 50 := by
    rw [round2]
    have h1 : ((1 : ℚ) / 2 * 100 * 100) = ((5000 : ℤ) : ℚ) := by norm_num
    rw [h1, pyRound_intCast]
    norm_num
  rw [h50, hlen, zip_replicate_eq_map]
  exact List.Sorted.insertionSort_eq (pairwise_rowLe_const filenames 50)

/-- Witness for C4 at a concrete input. -/
theorem c4_exception_fallback_witness :
    ((documents "job" ["x"]).all (fun d => d = "") ≠ true) ∧
    try_scores envFail "job" ["x"] (documents "job" ["x"]) = none ∧
    compute_similarity envFail "job" ["x"] ["r.pdf"] = [("r.pdf", (50 : ℚ))] :=
  ⟨by decide, rfl,
    c4_exception_fallback envFail "job" ["x"] ["r.pdf"] rfl (by decide) rfl⟩

/-- Claim C9: in every branch the returned table has exactly one row per input
resume and its Resume column is a permutation of the input filenames. -/
theorem c9_rows_permutation (env : NlpEnv) (jd_text : String)
    (resume_texts filenames : List String)
    (hlen : resume_texts.length = filenames.length)
    (hcs : ∀ cs, env.cosSim (documents jd_text resume_texts) = some cs →
      cs.length = resume_texts.length) :
    List.Perm ((compute_similarity env jd_text resume_texts filenames).map
      Prod.fst) filenames ∧
    (compute_similarity env jd_text resume_texts filenames).length
      = filenames.length := by
  have hfs := final_scores_length env jd_text resume_texts
    (documents jd_text resume_texts) hcs
  unfold compute_similarity sort_values_desc
  by_cases h : (documents jd_text resume_texts).all (fun d => d = "") = true
  · rw [if_pos h]
    constructor
    · have hmm : (Prod.fst ∘ fun f : String => (f, (0 : ℚ))) = id := rfl
      rw [List.map_map, hmm, List.map_id]
    · simp
  · rw [if_neg h]
    have hperm := List.perm_insertionSort rowLe
      (ranked_rows env jd_text resume_texts filenames)
    constructor
    · refine (hperm.map Prod.fst).trans ?_
      rw [ranked_rows, List.map_fst_zip]
      rw [List.length_map, hfs, hlen]
    · rw [hperm.length_eq, ranked_rows, List.length_zip, List.length_map, hfs,
        ← hlen, min_self]

/-- Witness for C9 at a concrete input. -/
theorem c9_rows_permutation_witness :
    List.Perm ((compute_similarity envOk "jd python" ["python dev"]
      ["r.pdf"]).map Prod.fst) ["r.pdf"] ∧
    (compute_similarity envOk "jd python" ["python dev"] ["r.pdf"]).length = 1 :=
  c9_rows_permutation envOk "jd python" ["python dev"] ["r.pdf"] rfl
    (by
      intro cs h
      have h2 : some [(1 : ℚ) / 2] = some cs := h
      cases h2
      rfl)

/-- Claim C1: with equal-length lists, when vectorization (and the keyword
extraction inside the try-block) succeeds, the Match % computed for resume i
is round(100 * (0.7 * A_i + 0.3 * B_i), 2), where A_i is the cosine
similarity of the job vector against the vector of resume i and B_i the
keyword-overlap ratio (0 when the job description has no keywords); the
returned ranking is a permutation of these per-resume rows. -/
theorem c1_match_formula (env : NlpEnv) (jd_text : String)
    (resume_texts filenames : List String) (i : Nat)
    (cs : List ℚ) (jdkw rki : Finset String) (kws : List ℚ)
    (hlen : resume_texts.length = filenames.length)
    (hne : (documents jd_text resume_texts).all (fun d => d = "") ≠ true)
    (hcs : env.cosSim (documents jd_text resume_texts) = some cs)
    (hcslen : cs.length = resume_texts.length)
    (hjd : env.extract_keywords jd_text = some jdkw)
    (hkws : keyword_scores env jdkw resume_texts = some kws)
    (hi : i < resume_texts.length)
    (hrki : env.extract_keywords (resume_texts.getD i "") = some rki) :
    (ranked_rows env jd_text resume_texts filenames).getD i ("", 0) =
      (filenames.getD i "",
        round2 (100 * (7 / 10 * cs.getD i 0 + 3 / 10 *
          (if jdkw = ∅ then 0 else ((jdkw ∩ rki).card : ℚ) / jdkw.card)))) ∧
    List.Perm (compute_similarity env jd_text resume_texts filenames)
      (ranked_rows env jd_text resume_texts filenames) := by
  have hkl := keyword_scores_length env jdkw resume_texts kws hkws
  have hfs : final_scores env jd_text resume_texts (documents jd_text resume_texts)
      = (cs.zip kws).map (fun p => 7 / 10 * p.1 + 3 / 10 * p.2) := by
    unfold final_scores try_scores
    simp only [hcs, hjd, hkws, Option.getD_some]
  constructor
  · have hif : i < filenames.length := hlen ▸ hi
    have hic : i < cs.length := hcslen ▸ hi
    have hik : i < kws.length := hkl ▸ hi
    have hiz : i < (cs.zip kws).length := by
      rw [List.length_zip, hcslen, hkl, min_self]
      exact hi
    have him : i < ((final_scores env jd_text resume_texts
        (documents jd_text resume_texts)).map (fun s => round2 (s * 100))).length := by
      rw [List.length_map, hfs, List.length_map]
      exact hiz
    have hizz : i < (ranked_rows env jd_text resume_texts filenames).length := by
      unfold ranked_rows
      rw [List.length_zip]
      exact lt_min hif him
    unfold ranked_rows
    unfold ranked_rows at hizz
    rw [List.getD_eq_getElem _ _ hizz, List.getElem_zip]
    have hfin : i < (final_scores env jd_text resume_texts
        (documents jd_text resume_texts)).length := by
      rw [hfs, List.length_map]
      exact hiz
    have hsc : (final_scores env jd_text resume_texts
        (documents jd_text resume_texts)).getD i 0
        = 7 / 10 * cs.getD i 0 + 3 / 10 * kws.getD i 0 := by
      rw [List.getD_eq_getElem _ _ hfin]
      rw [List.getElem_of_eq hfs, List.getElem_map, List.getElem_zip]
      rw [List.getD_eq_getElem _ _ hic, List.getD_eq_getElem _ _ hik]
    have hmap : ((final_scores env jd_text resume_texts
        (documents jd_text resume_texts)).map (fun s => round2 (s * 100)))[i]
        = round2 ((7 / 10 * cs.getD i 0 + 3 / 10 * kws.getD i 0) * 100) := by
      rw [List.getElem_map]
      rw [← List.getD_eq_getElem _ (0 : ℚ) hfin]
      rw [hsc]
    rw [hmap]
    have hb := keyword_scores_getD env jdkw resume_texts kws i rki hkws hi hrki
    rw [hb]
    rw [List.getD_eq_getElem _ _ hif]
    rw [mul_comm _ (100 : ℚ)]
  · unfold compute_similarity sort_values_desc
    rw [if_neg hne]
    exact List.perm_insertionSort rowLe _

/-- Witness for C1 at a concrete input. -/
theorem c1_match_formula_witness :
    (ranked_rows envOk "jd python" ["python dev"] ["r.pdf"]).getD 0 ("", 0) =
      ("r.pdf",
        round2 (100 * (7 / 10 * ([(1 : ℚ) / 2].getD 0 0) + 3 / 10 *
          (if ({"python", "aws"} : Finset String) = ∅ then 0
           else ((({"python", "aws"} : Finset String) ∩ {"python"}).card : ℚ) /
             ({"python", "aws"} : Finset String).card)))) ∧
    List.Perm (compute_similarity envOk "jd python" ["python dev"] ["r.pdf"])
      (ranked_rows envOk "jd python" ["python dev"] ["r.pdf"]) :=
  c1_match_formula envOk "jd python" ["python dev"] ["r.pdf"] 0
    [(1 : ℚ) / 2] {"python", "aws"} {"python"} [(1 : ℚ) / 2]
    rfl (by decide) rfl rfl rfl rfl (by decide) rfl

/-- Claim C7: every element of missing_keywords(jd_text, resume_text) is a
job-description keyword that is not a resume keyword, has length > 2, is not
composed entirely of digits, and the returned set has at most 15 elements. -/
theorem c7_missing_keywords_props (env : NlpEnv) (jd_text resume_text : String)
    (jk rk M : Finset String)
    (hjk : env.extract_keywords jd_text = some jk)
    (hrk : env.extract_keywords resume_text = some rk)
    (hM : missing_keywords env jd_text resume_text = some M) :
    (∀ kw ∈ M, kw ∈ jk ∧ kw ∉ rk ∧ 2 < kw.length ∧ pyIsDigit kw = false) ∧
      M.card ≤ 15 := by
  unfold missing_keywords at hM
  rw [hjk, hrk] at hM
  simp only [Option.some.injEq] at hM
  subst hM
  constructor
  · intro kw hkw
    rw [List.mem_toFinset] at hkw
    have h1 := List.take_subset 15 _ hkw
    have h2 := (List.perm_insertionSort
      (fun a b : String => b.length ≤ a.length) _).subset h1
    rw [Finset.mem_sort] at h2
    rw [Finset.mem_filter] at h2
    obtain ⟨hmem, hlen2, hdig⟩ := h2
    rw [Finset.mem_sdiff] at hmem
    exact ⟨hmem.1, hmem.2, hlen2, hdig⟩
  · exact le_trans (List.toFinset_card_le _)
      (le_trans (List.length_take_le 15 _) (le_refl 15))

theorem missing_keywords_envOk_eval :
    missing_keywords envOk "jd python" "r" = some {"aws"} := by
  have hjk : envOk.extract_keywords "jd python" = some {"python", "aws"} := rfl
  have hrk : envOk.extract_keywords "r" = some {"python"} := rfl
  unfold missing_keywords
  simp only [hjk, hrk]
  have hsd : (({"python", "aws"} : Finset String) \ {"python"}) = {"aws"} := by
    decide
  rw [hsd]
  have hf : Finset.filter (fun kw => 2 < kw.length ∧ pyIsDigit kw = false)
      ({"aws"} : Finset String) = {"aws"} := by decide
  rw [hf, Finset.sort_singleton]
  rfl

/-- Witness for C7 at a concrete input. -/
theorem c7_missing_keywords_props_witness :
    (∀ kw ∈ ({"aws"} : Finset String),
      kw ∈ ({"python", "aws"} : Finset String) ∧
      kw ∉ ({"python"} : Finset String) ∧
      2 < kw.length ∧ pyIsDigit kw = false) ∧
    ({"aws"} : Finset String).card ≤ 15 :=
  c7_missing_keywords_props envOk "jd python" "r" {"python", "aws"} {"python"}
    {"aws"} rfl rfl missing_keywords_envOk_eval

theorem extracted_pairs_eq_nil_iff {R : Type} (env : AppEnv R)
    (files : List UploadedFile) :
    extracted_pairs env files = [] ↔
      ∀ f ∈ files, allowed_file f.filename = false ∨ f.extracted = "" := by
  unfold extracted_pairs
  rw [List.filterMap_eq_nil_iff]
  constructor
  · intro h f hf
    have hh := h f hf
    by_cases ha : allowed_file f.filename = true
    · by_cases he : f.extracted = ""
      · exact Or.inr he
      · rw [if_pos] at hh
        · exact absurd hh (by simp)
        · simp [ha, he]
    · exact Or.inl (by simpa using ha)
  · intro h f hf
    rcases h f hf with ha | he
    · rw [if_neg]
      simp [ha]
    · rw [if_neg]
      simp [he]

/-- Claim C5: POST /analyze returns 400 exactly when the job description is
empty after trimming, the resumes field is absent, no file is selected (empty
list or first filename empty), or no uploaded file yields extractable text;
any other exception raised during processing is caught and returned as 500
with the exception message. -/
theorem c5_analyze_status (R : Type) (env : AppEnv R) (req : AnalyzeRequest) :
    (statusOf (analyze env req) = 400 ↔ analyze_400_spec req) ∧
    (∀ e, analyze env req = Outcome.serverError e ↔
      (¬ analyze_400_spec req ∧
        env.process (pyStrip (req.job_description.getD ""))
          ((extracted_pairs env (req.resumes.getD [])).map Prod.snd)
          ((extracted_pairs env (req.resumes.getD [])).map Prod.fst)
          = Except.error e)) := by
  unfold analyze
  by_cases hjd : pyStrip (req.job_description.getD "") = ""
  · rw [if_pos hjd]
    constructor
    · exact iff_of_true rfl (Or.inl hjd)
    · intro e
      refine iff_of_false (by simp) ?_
      rintro ⟨hns, _⟩
      exact hns (Or.inl hjd)
  · rw [if_neg hjd]
    cases hres : req.resumes with
    | none =>
      constructor
      · exact iff_of_true rfl (Or.inr (Or.inl hres))
      · intro e
        refine iff_of_false (by simp) ?_
        rintro ⟨hns, _⟩
        exact hns (Or.inr (Or.inl hres))
    | some files =>
      cases files with
      | nil =>
        constructor
        · exact iff_of_true rfl (Or.inr (Or.inr ⟨[], hres, Or.inl rfl⟩))
        · intro e
          refine iff_of_false (by simp) ?_
          rintro ⟨hns, _⟩
          exact hns (Or.inr (Or.inr ⟨[], hres, Or.inl rfl⟩))
      | cons f0 rest =>
        by_cases hf0 : f0.filename = ""
        · simp only [if_pos hf0]
          constructor
          · exact iff_of_true rfl
              (Or.inr (Or.inr ⟨f0 :: rest, hres, Or.inr (Or.inl ⟨f0, rest, rfl, hf0⟩)⟩))
          · intro e
            refine iff_of_false (by simp) ?_
            rintro ⟨hns, _⟩
            exact hns
              (Or.inr (Or.inr ⟨f0 :: rest, hres, Or.inr (Or.inl ⟨f0, rest, rfl, hf0⟩)⟩))
        · simp only [if_neg hf0]
          by_cases hp : extracted_pairs env (f0 :: rest) = []
          · rw [if_pos hp]
            have hall := (extracted_pairs_eq_nil_iff env (f0 :: rest)).mp hp
            constructor
            · exact iff_of_true rfl
                (Or.inr (Or.inr ⟨f0 :: rest, hres, Or.inr (Or.inr hall)⟩))
            · intro e
              refine iff_of_false (by simp) ?_
              rintro ⟨hns, _⟩
              exact hns (Or.inr (Or.inr ⟨f0 :: rest, hres, Or.inr (Or.inr hall)⟩))
          · rw [if_neg hp]
            have hnspec : ¬ analyze_400_spec req := by
              rintro (h1 | h2 | ⟨files2, hfe, h3⟩)
              · exact hjd h1
              · rw [hres] at h2
                exact Option.noConfusion h2
              · rw [hres] at hfe
                injection hfe with hfe
                subst hfe
                rcases h3 with h3 | ⟨g0, grest, hge, hgname⟩ | h3
                · exact List.noConfusion h3
                · injection hge with h4 h5
                  exact hf0 (h4 ▸ hgname)
                · exact hp ((extracted_pairs_eq_nil_iff env _).mpr h3)
            cases hproc : env.process (pyStrip (req.job_description.getD ""))
                ((extracted_pairs env (f0 :: rest)).map Prod.snd)
                ((extracted_pairs env (f0 :: rest)).map Prod.fst) with
            | ok r =>
              constructor
              · exact iff_of_false (by simp [statusOf]) hnspec
              · intro e
                refine iff_of_false (by simp) ?_
                rintro ⟨_, hpe⟩
                simp only [Option.getD_some] at hpe
                rw [hproc] at hpe
                exact Except.noConfusion hpe
            | error e0 =>
              constructor
              · exact iff_of_false (by simp [statusOf]) hnspec
              · intro e
                constructor
                · intro h
                  injection h with h
                  subst h
                  refine ⟨hnspec, ?_⟩
                  simpa using hproc
                · rintro ⟨_, hpe⟩
                  simp only [Option.getD_some] at hpe
                  rw [hproc] at hpe
                  injection hpe with h
                  exact h ▸ rfl

theorem wb_search_nonword_end_false (pat : String) (t : List Char)
    (hlast : wbOpt pat.toList.getLast? = false)
    (hne : pat.toList ≠ [])
    (h : ∀ i, i < t.length → (t.drop i).take pat.length = pat.toList →
      wbOpt t[i + pat.length]? = false) :
    wb_search pat t = false := by
  unfold wb_search
  rw [List.any_eq_false]
  intro i hi
  by_cases hocc : (t.drop i).take pat.length = pat.toList
  · have hil : i < t.length := by
      have h1 := congrArg List.length hocc
      rw [List.length_take, List.length_drop] at h1
      have h2 : 0 < pat.toList.length := List.length_pos.mpr hne
      have h3 : min pat.length (t.length - i) ≤ t.length - i :=
        min_le_right _ _
      rw [h1] at h3
      omega
    have hb := h i hil hocc
    rw [hb, hlast]
    simp
  · intro hc
    rw [Bool.and_eq_true, Bool.and_eq_true] at hc
    exact hocc (of_decide_eq_true hc.1.1)

/-- Claim C10: for every text in which each occurrence of "c++" or "c#" in the
lower-cased character sequence is immediately followed by a non-word character
or the end of the text, get_skill_categories returns a Programming Languages
list containing neither "C++" nor "C#": the word-boundary \b placed after an
escaped + or # can only match when a word character follows. -/
theorem c10_cpp_csharp_unmatchable (text : String)
    (hpp : ∀ i, i < (text.toList.map Char.toLower).length →
      ((text.toList.map Char.toLower).drop i).take 3 = ['c', '+', '+'] →
      wbOpt (text.toList.map Char.toLower)[i + 3]? = false)
    (hcs : ∀ i, i < (text.toList.map Char.toLower).length →
      ((text.toList.map Char.toLower).drop i).take 2 = ['c', '#'] →
      wbOpt (text.toList.map Char.toLower)[i + 2]? = false) :
    "C++" ∉ (get_skill_categories text).programming_languages ∧
    "C#" ∉ (get_skill_categories text).programming_languages := by
  have hppf : wb_search "c++" (text.toList.map Char.toLower) = false :=
    wb_search_nonword_end_false "c++" _ (by decide) (by decide) hpp
  have hcsf : wb_search "c#" (text.toList.map Char.toLower) = false :=
    wb_search_nonword_end_false "c#" _ (by decide) (by decide) hcs
  constructor
  · intro hmem
    unfold get_skill_categories at hmem
    simp only [List.mem_map, List.mem_filter] at hmem
    obtain ⟨l, ⟨hmeml, hsearch⟩, hcap⟩ := hmem
    simp only [programming_languages_list, List.mem_cons,
      List.not_mem_nil, or_false] at hmeml
    rcases hmeml with rfl|rfl|rfl|rfl|rfl|rfl|rfl|rfl|rfl|rfl|rfl|rfl|rfl|rfl
    · exact absurd hcap (by decide)
    · exact absurd hcap (by decide)
    · exact absurd hcap (by decide)
    · rw [hppf] at hsearch
      exact Bool.noConfusion hsearch
    · exact absurd hcap (by decide)
    · exact absurd hcap (by decide)
    · exact absurd hcap (by decide)
    · exact absurd hcap (by decide)
    · exact absurd hcap (by decide)
    · exact absurd hcap (by decide)
    · exact absurd hcap (by decide)
    · exact absurd hcap (by decide)
    · exact absurd hcap (by decide)
    · exact absurd hcap (by decide)
  · intro hmem
    unfold get_skill_categories at hmem
    simp only [List.mem_map, List.mem_filter] at hmem
    obtain ⟨l, ⟨hmeml, hsearch⟩, hcap⟩ := hmem
    simp only [programming_languages_list, List.mem_cons,
      List.not_mem_nil, or_false] at hmeml
    rcases hmeml with rfl|rfl|rfl|rfl|rfl|rfl|rfl|rfl|rfl|rfl|rfl|rfl|rfl|rfl
    · exact absurd hcap (by decide)
    · exact absurd hcap (by decide)
    · exact absurd hcap (by decide)
    · exact absurd hcap (by decide)
    · rw [hcsf] at hsearch
      exact Bool.noConfusion hsearch
    · exact absurd hcap (by decide)
    · exact absurd hcap (by decide)
    · exact absurd hcap (by decide)
    · exact absurd hcap (by decide)
    · exact absurd hcap (by decide)
    · exact absurd hcap (by decide)
    · exact absurd hcap (by decide)
    · exact absurd hcap (by decide)
    · exact absurd hcap (by decide)

/-- Witness for C10 at the concrete text of the claim. -/
theorem c10_cpp_csharp_unmatchable_witness :
    "C++" ∉ (get_skill_categories "c++ and c# developer").programming_languages ∧
    "C#" ∉ (get_skill_categories "c++ and c# developer").programming_languages :=
  c10_cpp_csharp_unmatchable "c++ and c# developer" (by decide) (by decide)

/-! ## Lemmas for claim C8 (idempotence of preprocess_text) -/

theorem toLower_toLower (c : Char) :
    Char.toLower (Char.toLower c) = Char.toLower c := by
  unfold Char.toLower
  by_cases h : c.toNat ≥ 65 ∧ c.toNat ≤ 90
  · rw [if_pos h]
    have hv : (c.toNat + 32).isValidChar := Or.inl (by omega)
    have ht : (Char.ofNat (c.toNat + 32)).toNat = c.toNat + 32 := by
      unfold Char.ofNat
      rw [dif_pos hv]
      rfl
    rw [ht]
    rw [if_neg (by omega)]
  · rw [if_neg h, if_neg h]

theorem keepChar_sub1 (l : List Char) : ∀ c ∈ sub1 l, keepChar c = true := by
  intro c hc
  rw [sub1, List.mem_map] at hc
  obtain ⟨a, _, rfl⟩ := hc
  by_cases h : keepChar a = true
  · rw [if_pos h]
    exact h
  · rw [if_neg h]
    decide

theorem toLower_sub1 (l : List Char) :
    ∀ c ∈ sub1 (l.map Char.toLower), Char.toLower c = c := by
  intro c hc
  rw [sub1, List.mem_map] at hc
  obtain ⟨a, ha, rfl⟩ := hc
  rw [List.mem_map] at ha
  obtain ⟨y, _, rfl⟩ := ha
  by_cases h : keepChar (Char.toLower y) = true
  · rw [if_pos h]
    exact toLower_toLower y
  · rw [if_neg h]
    decide

theorem mem_collapseAux :
    ∀ (l : List Char) (b : Bool) (c : Char), c ∈ collapseAux b l →
      c = ' ' ∨ c ∈ l := by
  intro l
  induction l with
  | nil =>
    intro b c hc
    simp [collapseAux] at hc
  | cons a t ih =>
    intro b c hc
    simp only [collapseAux] at hc
    by_cases ha : isSpaceChar a = true
    · rw [if_pos ha] at hc
      cases b with
      | true =>
        simp only [if_true] at hc
        rcases ih true c hc with h | h
        · exact Or.inl h
        · exact Or.inr (List.mem_cons_of_mem a h)
      | false =>
        simp only [Bool.false_eq_true, if_false] at hc
        rcases List.mem_cons.mp hc with h | h
        · exact Or.inl h
        · rcases ih true c h with h2 | h2
          · exact Or.inl h2
          · exact Or.inr (List.mem_cons_of_mem a h2)
    · rw [if_neg ha] at hc
      rcases List.mem_cons.mp hc with h | h
      · exact Or.inr (h ▸ List.mem_cons_self a t)
      · rcases ih false c h with h2 | h2
        · exact Or.inl h2
        · exact Or.inr (List.mem_cons_of_mem a h2)

theorem collapse_space_eq :
    ∀ (l : List Char) (b : Bool), ∀ c ∈ collapseAux b l,
      isSpaceChar c = true → c = ' ' := by
  intro l
  induction l with
  | nil =>
    intro b c hc
    simp [collapseAux] at hc
  | cons a t ih =>
    intro b c hc hsp
    simp only [collapseAux] at hc
    by_cases ha : isSpaceChar a = true
    · rw [if_pos ha] at hc
      cases b with
      | true =>
        simp only [if_true] at hc
        exact ih true c hc hsp
      | false =>
        simp only [Bool.false_eq_true, if_false] at hc
        rcases List.mem_cons.mp hc with h | h
        · exact h
        · exact ih true c h hsp
    · rw [if_neg ha] at hc
      rcases List.mem_cons.mp hc with h | h
      · rw [h] at hsp
        exact absurd hsp (by simp [ha])
      · exact ih false c h hsp

theorem collapse_head_true :
    ∀ (l : List Char) (c : Char), (collapseAux true l).head? = some c →
      isSpaceChar c = false := by
  intro l
  induction l with
  | nil =>
    intro c hc
    simp [collapseAux] at hc
  | cons a t ih =>
    intro c hc
    simp only [collapseAux] at hc
    by_cases ha : isSpaceChar a = true
    · rw [if_pos ha, if_true] at hc
      exact ih c hc
    · rw [if_neg ha] at hc
      simp only [List.head?_cons, Option.some.injEq] at hc
      rw [← hc]
      simpa using ha

theorem collapse_chain :
    ∀ (l : List Char) (b : Bool), List.Chain' chR (collapseAux b l) := by
  intro l
  induction l with
  | nil =>
    intro b
    simp [collapseAux]
  | cons a t ih =>
    intro b
    simp only [collapseAux]
    by_cases ha : isSpaceChar a = true
    · rw [if_pos ha]
      cases b with
      | true =>
        simp only [if_true]
        exact ih true
      | false =>
        simp only [Bool.false_eq_true, if_false]
        rw [List.chain'_cons']
        refine ⟨?_, ih true⟩
        intro y hy
        have := collapse_head_true t y hy
        rw [chR]
        intro hcon
        rw [this] at hcon
        exact Bool.noConfusion hcon.2
    · rw [if_neg ha]
      rw [List.chain'_cons']
      refine ⟨?_, ih false⟩
      intro y _
      rw [chR]
      intro hcon
      exact ha hcon.1

theorem collapse_id :
    ∀ l : List Char,
      (∀ c ∈ l, isSpaceChar c = true → c = ' ') →
      List.Chain' chR l →
      collapseAux false l = l ∧
        ((∀ c, l.head? = some c → isSpaceChar c = false) →
          collapseAux true l = l) := by
  intro l
  induction l with
  | nil =>
    intro _ _
    exact ⟨rfl, fun _ => rfl⟩
  | cons a t ih =>
    intro hs hch
    have hcht : List.Chain' chR t := hch.tail
    obtain ⟨ihf, iht⟩ := ih (fun c hc => hs c (List.mem_cons_of_mem a hc)) hcht
    by_cases ha : isSpaceChar a = true
    · have ha2 : a = ' ' := hs a (List.mem_cons_self a t) ha
      have hthead : ∀ c, t.head? = some c → isSpaceChar c = false := by
        intro c hc
        have h1 := (List.chain'_cons'.mp hch).1 c hc
        rw [chR] at h1
        by_cases h2 : isSpaceChar c = true
        · exact absurd ⟨ha, h2⟩ h1
        · simpa using h2
      constructor
      · simp only [collapseAux, if_pos ha, Bool.false_eq_true, if_false]
        rw [iht hthead, ha2]
      · intro hhead
        have := hhead a List.head?_cons
        rw [ha] at this
        exact Bool.noConfusion this
    · constructor
      · simp only [collapseAux, if_neg ha]
        rw [ihf]
      · intro _
        simp only [collapseAux, if_neg ha]
        rw [ihf]

theorem head?_dropWhile_false (p : Char → Bool) :
    ∀ (l : List Char) (c : Char), (l.dropWhile p).head? = some c →
      p c = false := by
  intro l
  induction l with
  | nil =>
    intro c hc
    simp at hc
  | cons a t ih =>
    intro c hc
    rw [List.dropWhile_cons] at hc
    by_cases hp : p a = true
    · rw [if_pos hp] at hc
      exact ih c hc
    · rw [if_neg hp] at hc
      simp only [List.head?_cons, Option.some.injEq] at hc
      rw [← hc]
      simpa using hp

theorem getLast?_dropWhile_of_ne_nil (p : Char → Bool) (l : List Char)
    (h : l.dropWhile p ≠ []) : (l.dropWhile p).getLast? = l.getLast? := by
  obtain ⟨pre, hpre⟩ := List.dropWhile_suffix (l := l) p
  conv_rhs => rw [← hpre]
  rw [List.getLast?_append_of_ne_nil pre h]

theorem stripList_head_false (l : List Char) :
    ∀ c, (stripList l).head? = some c → isSpaceChar c = false := by
  intro c hc
  unfold stripList at hc
  rw [List.head?_reverse] at hc
  have hne : (l.dropWhile isSpaceChar).reverse.dropWhile isSpaceChar ≠ [] := by
    intro h0
    rw [h0] at hc
    exact Option.noConfusion hc
  rw [getLast?_dropWhile_of_ne_nil _ _ hne, List.getLast?_reverse] at hc
  exact head?_dropWhile_false isSpaceChar l c hc

theorem stripList_getLast_false (l : List Char) :
    ∀ c, (stripList l).getLast? = some c → isSpaceChar c = false := by
  intro c hc
  unfold stripList at hc
  rw [List.getLast?_reverse] at hc
  exact head?_dropWhile_false isSpaceChar _ c hc

theorem stripList_subset (l : List Char) : ∀ c ∈ stripList l, c ∈ l := by
  intro c hc
  unfold stripList at hc
  rw [List.mem_reverse] at hc
  have h1 := (List.dropWhile_suffix isSpaceChar).subset hc
  rw [List.mem_reverse] at h1
  exact (List.dropWhile_suffix isSpaceChar).subset h1

theorem stripList_chain (l : List Char) (h : List.Chain' chR l) :
    List.Chain' chR (stripList l) := by
  unfold stripList
  rw [List.chain'_reverse]
  refine List.Chain'.suffix ?_ (List.dropWhile_suffix _)
  rw [List.chain'_reverse]
  exact List.Chain'.suffix h (List.dropWhile_suffix _)

theorem strip_id (l : List Char)
    (hh : ∀ c, l.head? = some c → isSpaceChar c = false)
    (hl : ∀ c, l.getLast? = some c → isSpaceChar c = false) :
    stripList l = l := by
  unfold stripList
  have h1 : l.dropWhile isSpaceChar = l := by
    cases l with
    | nil => rfl
    | cons a t =>
      rw [List.dropWhile_cons, if_neg]
      rw [hh a List.head?_cons]
      exact Bool.noConfusion
  rw [h1]
  have h2 : l.reverse.dropWhile isSpaceChar = l.reverse := by
    cases hr : l.reverse with
    | nil => rfl
    | cons a t =>
      rw [List.dropWhile_cons, if_neg]
      have ha : l.getLast? = some a := by
        rw [← List.head?_reverse, hr, List.head?_cons]
      rw [hl a ha]
      exact Bool.noConfusion
  rw [h2, List.reverse_reverse]

theorem preprocess_normalized (L : List Char)
    (hk : ∀ c ∈ L, keepChar c = true)
    (hlow : ∀ c ∈ L, Char.toLower c = c)
    (hsp : ∀ c ∈ L, isSpaceChar c = true → c = ' ')
    (hch : List.Chain' chR L)
    (hh : ∀ c, L.head? = some c → isSpaceChar c = false)
    (hl : ∀ c, L.getLast? = some c → isSpaceChar c = false) :
    preprocess_text (String.mk L) = String.mk L := by
  by_cases hLnil : L = []
  · rw [hLnil]
    rfl
  · have hne : String.mk L ≠ "" := fun h0 => hLnil ((mk_eq_empty_iff L).mp h0)
    unfold preprocess_text
    rw [if_neg hne, toList_mk]
    have h1 : L.map Char.toLower = L := by
      have hcg := List.map_congr_left (l := L) (f := Char.toLower) (g := id)
        (fun a ha => hlow a ha)
      rw [hcg, List.map_id]
    rw [h1]
    have h2 : sub1 L = L := by
      rw [sub1]
      have hcg := List.map_congr_left (l := L)
        (f := fun c => if keepChar c then c else ' ') (g := id)
        (fun a ha => by simp [hk a ha])
      rw [hcg, List.map_id]
    rw [h2, (collapse_id L hsp hch).1, strip_id L hh hl]

/-- Claim C8: the text normalizer is idempotent: preprocessing an already
preprocessed string returns it unchanged. -/
theorem c8_preprocess_idempotent (s : String) :
    preprocess_text (preprocess_text s) = preprocess_text s := by
  by_cases hs : s = ""
  · rw [hs]
    rfl
  · have hval : preprocess_text s =
        String.mk (stripList (collapseAux false (sub1 (s.toList.map Char.toLower)))) := by
      unfold preprocess_text
      rw [if_neg hs]
    rw [hval]
    apply preprocess_normalized
    · intro c hc
      rcases mem_collapseAux _ false c (stripList_subset _ c hc) with h | h
      · rw [h]
        decide
      · exact keepChar_sub1 _ c h
    · intro c hc
      rcases mem_collapseAux _ false c (stripList_subset _ c hc) with h | h
      · rw [h]
        decide
      · exact toLower_sub1 s.toList c h
    · intro c hc
      exact collapse_space_eq _ false c (stripList_subset _ c hc)
    · exact stripList_chain _ (collapse_chain _ false)
    · exact stripList_head_false _
    · exact stripList_getLast_false _
